import Mathlib

/-!
Shallow embedding of the bubble-sort exercise in `complete/c10-sort/src`
(`Sorter.ts`, `NumbersCollection.ts`, `CharactersCollection.ts` (in `index.ts`),
`LinkedList.ts`) together with proofs of the specification's testable
properties.

Modelling conventions:
* A `NumbersCollection` is its backing `data : number[]`, modelled as `List Int`.
* A `CharactersCollection` is its backing `data : string`, modelled as
  `List Char` (one entry per UTF-16 unit; all fixture strings are ASCII).
* A `LinkedList` is the traversal sequence of its node values, modelled as
  `List Int`; the node reached from the head after `i` steps corresponds to
  position `i` of the list.
* A thrown JavaScript error (`throw new Error(...)` or a `TypeError` from
  dereferencing `null`/`undefined`) is modelled as `none` of an `Option`
  result; a normal return of `v` is `some v`.
* Indices are `Nat`.  An omitted optional `rightIndex` argument is `none`
  of an `Option Nat`; `some r` is an explicitly passed argument.
-/

/-- Models the statement `if (!rightIndex) { rightIndex = leftIndex + 1; }`
used by `LinkedList.compare/swap` and `CharactersCollection.compare/swap`:
the default is substituted whenever the argument is *falsy*, i.e. both when
it is absent (`undefined`) and when it is the number `0`. -/
def falsyDefault (leftIndex : Nat) (rightIndex : Option Nat) : Nat :=
  match rightIndex with
  | none => leftIndex + 1
  | some r => if r = 0 then leftIndex + 1 else r

/-- Models the JavaScript template-literal fragment `${this.data[i]}`: a
character interpolates as itself, while an out-of-range read yields
`undefined`, which interpolates as the nine characters `"undefined"`. -/
def jsCharStr : Option Char → List Char
  | some c => [c]
  | none => "undefined".toList

/-! ## NumbersCollection (`NumbersCollection.ts`)

State: the backing array `data : number[]`, modelled as `List Int`. -/

/-- Method `NumbersCollection.compare(leftIndex, rightIndex = leftIndex + 1)`:
returns `this.data[leftIndex]! > this.data[rightIndex]!`.  The default
parameter is a true ES default: it is applied only when the argument is
absent (`undefined`), so an explicit `0` is honoured.  When either index is
out of range the JavaScript read yields `undefined`, and `x > undefined`
and `undefined > x` are both `false`, so the method totally returns
`false` there. -/
def NumbersCollection.compare (data : List Int) (leftIndex : Nat)
    (rightIndex : Option Nat) : Bool :=
  let r := rightIndex.getD (leftIndex + 1)
  match data[leftIndex]?, data[r]? with
  | some a, some b => a > b
  | _, _ => false

/-- Method `NumbersCollection.swap(leftIndex, rightIndex = leftIndex + 1)`:
early-returns when `leftIndex === rightIndex`, otherwise performs the
destructuring exchange
`[data[l], data[r]] = [data[r]!, data[l]!]`.
The model is faithful for in-range indices (both reads succeed and the two
positions are exchanged).  With an out-of-range index JavaScript would
instead store `undefined` into the array and possibly extend it, a state a
`List Int` cannot represent; every theorem below invokes `swap` on in-range
indices only, matching the only calls `Sorter.sort` makes. -/
def NumbersCollection.swap (data : List Int) (leftIndex : Nat)
    (rightIndex : Option Nat) : List Int :=
  let r := rightIndex.getD (leftIndex + 1)
  if leftIndex = r then data
  else
    match data[leftIndex]?, data[r]? with
    | some a, some b => (data.set leftIndex b).set r a
    | _, _ => data

/-! ## CharactersCollection (`index.ts`)

State: the backing string `data`, modelled as `List Char`. -/

/-- Helper `CharactersCollection.changeCase(letter)` for a single character
(`letter.length === 1` always holds at this granularity):
`'A' <= c <= 'B'` (i.e. `c` is `'A'` or `'B'`) is lower-cased,
`'a' <= c <= 'b'` (i.e. `c` is `'a'` or `'b'`) is upper-cased,
every other character is returned unchanged.  Note this *toggles* the case
of the four characters rather than folding them to a common case. -/
def changeCase (c : Char) : Char :=
  if 'A' ≤ c ∧ c ≤ 'B' then c.toLower
  else if 'a' ≤ c ∧ c ≤ 'b' then c.toUpper
  else c

/-- Method `CharactersCollection.compare(leftIndex, rightIndex?)`: applies the
falsy default to `rightIndex`, then returns
`changeCase(data[leftIndex]!) > changeCase(data[rightIndex]!)` under
ordinary character (code-unit) ordering.  An out-of-range read yields
`undefined` and `changeCase` then throws a `TypeError` on
`letter.length`; that throw is modelled as `none`. -/
def CharactersCollection.compare (data : List Char) (leftIndex : Nat)
    (rightIndex : Option Nat) : Option Bool :=
  let r := falsyDefault leftIndex rightIndex
  match data[leftIndex]?, data[r]? with
  | some a, some b => some (changeCase a > changeCase b)
  | _, _ => none

/-- Method `CharactersCollection.swap(leftIndex, rightIndex?)`: applies the falsy
default, then rebuilds the backing string as
`(leftIndex > 0 ? data.slice(0, leftIndex) : "")`
`+ data[rightIndex] + data[leftIndex]`
`+ (rightIndex < data.length ? data.slice(rightIndex + 1) : "")`.
`slice` clamps out-of-range bounds exactly like `take`/`drop`; an
out-of-range character read interpolates as the text `"undefined"`
(see `jsCharStr`).  The method never throws. -/
def CharactersCollection.swap (data : List Char) (leftIndex : Nat)
    (rightIndex : Option Nat) : List Char :=
  let r := falsyDefault leftIndex rightIndex
  (if 0 < leftIndex then data.take leftIndex else [])
    ++ jsCharStr data[r]? ++ jsCharStr data[leftIndex]?
    ++ (if r < data.length then data.drop (r + 1) else [])

/-! ## LinkedList (`LinkedList.ts`)

State: the sequence of node values reachable from `head`, as `List Int`.
`head = null` is `[]`; node `k` of the chain is position `k`. -/

/-- Method `LinkedList.at(index)` (named `nodeAt` because `at` is a Lean keyword):
walks the chain counting from `0` and returns the node at `index`; if the
chain ends first it throws `"out of range of linkedlist"`, modelled as
`none`.  The returned node is identified with its value. -/
def LinkedList.nodeAt : List Int → Nat → Option Int
  | [], _ => none
  | v :: _, 0 => some v
  | _ :: rest, n + 1 => LinkedList.nodeAt rest n

/-- Getter `LinkedList.length`: counts the nodes by full traversal. -/
def LinkedList.llength : List Int → Nat
  | [] => 0
  | _ :: rest => LinkedList.llength rest + 1

/-- Method `LinkedList.add(value)`: appends a fresh node at the tail (walks to the
node whose `next` is `null`; an empty list installs the node as `head`). -/
def LinkedList.add : List Int → Int → List Int
  | [], v => [v]
  | x :: rest, v => x :: LinkedList.add rest v

/-- Method `LinkedList.compare(leftIndex, rightIndex?)`: first throws
`"Need at least two node to compare"` when `!this.head || !this.head.next`
(fewer than two nodes), modelled as `none`; then applies the falsy default
to `rightIndex`; then, if `rightIndex < this.length`, returns
`this.at(leftIndex)!.value > this.at(rightIndex)!.value` (a throw from
`at` propagates as `none`); otherwise returns `false`. -/
def LinkedList.compare (list : List Int) (leftIndex : Nat)
    (rightIndex : Option Nat) : Option Bool :=
  match list with
  | [] => none
  | [_] => none
  | _ :: _ :: _ =>
    let r := falsyDefault leftIndex rightIndex
    if r < LinkedList.llength list then
      match LinkedList.nodeAt list leftIndex, LinkedList.nodeAt list r with
      | some a, some b => some (a > b)
      | _, _ => none
    else
      some false

/-- Method `LinkedList.swap(leftIndex, rightIndex?)`: applies the falsy default,
then gathers `nodes[0] = at(leftIndex - 1)` (only when `leftIndex > 0`;
a throw from `at` propagates), `nodes[1] = at(leftIndex)` (throw
propagates), `nodes[2] = nodes[1].next` (the node at `leftIndex + 1`, or
`null`), and — when `rightIndex < this.length - 1` — `nodes[3] =
nodes[2]!.next`.  It then relinks: the predecessor (or `head`) points at
`nodes[2]`, `nodes[2]!.next = nodes[1]`, and `nodes[1].next` becomes
`nodes[3]` when present and `null` otherwise.  When `nodes[2]` is `null`
the `nodes[2]!` dereference raises a `TypeError`, modelled as `none`
(JavaScript may have truncated the chain at the predecessor before the
throw; no verified call reaches this branch).  The resulting traversal is
the first `leftIndex` values, then the value at `leftIndex + 1`, then the
value at `leftIndex`, then — only when `rightIndex < length - 1` — the
chain hanging off `nodes[3]`, i.e. the values from `leftIndex + 2` on. -/
def LinkedList.swap (list : List Int) (leftIndex : Nat)
    (rightIndex : Option Nat) : Option (List Int) :=
  let r := falsyDefault leftIndex rightIndex
  if 0 < leftIndex ∧ LinkedList.nodeAt list (leftIndex - 1) = none then none
  else
    match LinkedList.nodeAt list leftIndex with
    | none => none
    | some a =>
      match LinkedList.nodeAt list (leftIndex + 1) with
      | none => none
      | some b =>
        some (list.take leftIndex ++ b :: a ::
          (if r < LinkedList.llength list - 1 then list.drop (leftIndex + 2) else []))

/-! ## Sorter (`Sorter.ts`)

`Sorter.sort()` is inherited by all three collections and only uses the
abstract members `length`, `compare`, `swap` — always passing a single
index, so `rightIndex` is omitted (`none`) in every call it makes.  A
`SortableOps` record packages those three members for one adapter, with
errors surfaced as `Option` (`compare`/`swap` of the adapters that can
throw return `none` there; total adapters are wrapped in `some`). -/

structure SortableOps (σ : Type) where
  length : σ → Nat
  compare : σ → Nat → Option Bool
  swap : σ → Nat → Option σ

/-- The inner loop `for (let j = 0; j < this.length - i - 1; j++)
{ if (this.compare(j)) { this.swap(j); } }` of `Sorter.sort`, starting at
counter value `j`.  `this.length` is re-read from the current state at
every iteration, matching the source; the `fuel` argument only bounds the
recursion and is chosen large enough that it is never exhausted for the
three adapters, whose `swap` preserves `length` (proved below), so each
run performs exactly the JavaScript iterations.  An adapter error
(`none` from `compare` or `swap`) aborts the loop, modelling the exception
propagating out of `sort()`. -/
def sortInner {σ : Type} (ops : SortableOps σ) (i : Nat) :
    Nat → σ → Nat → Option σ
  | 0, s, _ => some s
  | fuel + 1, s, j =>
    if j < ops.length s - i - 1 then
      match ops.compare s j with
      | none => none
      | some true =>
        match ops.swap s j with
        | none => none
        | some s2 => sortInner ops i fuel s2 (j + 1)
      | some false => sortInner ops i fuel s (j + 1)
    else
      some s

/-- The outer loop `for (let i = 0; i < this.length; i++) { ... }` of
`Sorter.sort`, starting at counter value `i`; the guard re-reads
`this.length` each iteration, and each body runs the inner loop from
`j = 0` (`fuel` as in `sortInner`). -/
def sortOuter {σ : Type} (ops : SortableOps σ) :
    Nat → σ → Nat → Option σ
  | 0, s, _ => some s
  | fuel + 1, s, i =>
    if i < ops.length s then
      match sortInner ops i (ops.length s) s 0 with
      | none => none
      | some s2 => sortOuter ops fuel s2 (i + 1)
    else
      some s

/-- Method `Sorter.sort()`: runs the nested loops from `i = 0`.  The outer fuel
`ops.length s` is exactly the number of outer iterations performed when
`swap` preserves `length` (true of all three adapters, proved below). -/
def Sorter.sort {σ : Type} (ops : SortableOps σ) (s : σ) : Option σ :=
  sortOuter ops (ops.length s) s 0

/-- The `Sortable` members of `NumbersCollection` as `sort()` sees them:
`length` is `data.length`; `compare` and `swap` are total methods (wrapped
in `some`) invoked with `rightIndex` omitted. -/
def NumbersCollection.ops : SortableOps (List Int) where
  length := List.length
  compare := fun s j => some (NumbersCollection.compare s j none)
  swap := fun s j => some (NumbersCollection.swap s j none)

/-- The `Sortable` members of `CharactersCollection` as `sort()` sees them:
`length` is `data.length`; `compare` may throw (out-of-range read),
`swap` is total. -/
def CharactersCollection.ops : SortableOps (List Char) where
  length := List.length
  compare := fun s j => CharactersCollection.compare s j none
  swap := fun s j => some (CharactersCollection.swap s j none)

/-- The `Sortable` members of `LinkedList` as `sort()` sees them: `length`
is the traversal count; `compare` and `swap` may throw. -/
def LinkedList.ops : SortableOps (List Int) where
  length := LinkedList.llength
  compare := fun s j => LinkedList.compare s j none
  swap := fun s j => LinkedList.swap s j none

example : Sorter.sort CharactersCollection.ops "1aBa2".toList =
    some "12aaB".toList := by decide

/-! ## A structural model of the two nested loops

`cpass key k l` is one inner-loop pass over `l` performing the `k`
comparisons at positions `0,…,k-1` (adjacent pairs, swapping when the left
key exceeds the right key); `csort key n l` is the whole `sort()` run:
passes with `k = n-1, n-2, …, 0`, matching the inner bound
`length - i - 1` as `i` counts up.  The simulation lemmas below show the
fuelled loop model computes exactly these functions for each adapter. -/

def cpass {α β : Type} [LinearOrder β] (key : α → β) : Nat → List α → List α
  | 0, l => l
  | _ + 1, [] => []
  | _ + 1, [a] => [a]
  | k + 1, a :: b :: t =>
    if key b < key a then b :: cpass key k (a :: t)
    else a :: cpass key k (b :: t)

def csort {α β : Type} [LinearOrder β] (key : α → β) : Nat → List α → List α
  | 0, l => l
  | k + 1, l => csort key k (cpass key k l)

/-- The adjacent transposition at positions `j`, `j+1` (identity when
either position is out of range): the common effect of all three adapters'
`swap(j)` on the value sequence. -/
def swapAdj {α : Type} (l : List α) (j : Nat) : List α :=
  match l[j]?, l[j + 1]? with
  | some a, some b => (l.set j b).set (j + 1) a
  | _, _ => l

theorem swapAdj_eq {α : Type} (l : List α) (j : Nat) (a b : α)
    (ha : l[j]? = some a) (hb : l[j + 1]? = some b) :
    swapAdj l j = l.take j ++ b :: a :: l.drop (j + 2) := by
  induction j generalizing l with
  | zero =>
    match l, ha, hb with
    | x :: y :: t, ha, hb =>
      simp only [List.getElem?_cons_zero, Option.some.injEq] at ha
      simp only [List.getElem?_cons_succ, List.getElem?_cons_zero,
        Option.some.injEq] at hb
      subst ha; subst hb
      simp [swapAdj, List.set]
  | succ j ih =>
    match l, ha, hb with
    | x :: t, ha, hb =>
      simp only [List.getElem?_cons_succ] at ha hb
      have hx : (x :: t)[j + 1]? = some a := by
        simpa [List.getElem?_cons_succ] using ha
      have hy : (x :: t)[j + 2]? = some b := by
        simpa [List.getElem?_cons_succ] using hb
      simp only [swapAdj, hx, hy]
      have := ih t ha hb
      simp only [swapAdj, ha, hb] at this
      simp [List.set, List.take, this]

theorem swapAdj_length {α : Type} (l : List α) (j : Nat) :
    (swapAdj l j).length = l.length := by
  unfold swapAdj
  rcases h1 : l[j]? with _ | a <;> rcases h2 : l[j + 1]? with _ | b <;> simp

theorem cpass_length {α β : Type} [LinearOrder β] (key : α → β) :
    ∀ (k : Nat) (l : List α), (cpass key k l).length = l.length
  | 0, _ => rfl
  | _ + 1, [] => rfl
  | _ + 1, [_] => rfl
  | k + 1, a :: b :: t => by
    simp only [cpass]
    split
    · simpa using cpass_length key k (a :: t)
    · simpa using cpass_length key k (b :: t)

theorem cpass_perm {α β : Type} [LinearOrder β] (key : α → β) :
    ∀ (k : Nat) (l : List α), (cpass key k l).Perm l
  | 0, l => List.Perm.refl l
  | _ + 1, [] => List.Perm.refl []
  | _ + 1, [a] => List.Perm.refl [a]
  | k + 1, a :: b :: t => by
    simp only [cpass]
    split
    · exact ((cpass_perm key k (a :: t)).cons b).trans (List.Perm.swap a b t)
    · exact (cpass_perm key k (b :: t)).cons a

theorem cpass_append {α β : Type} [LinearOrder β] (key : α → β) :
    ∀ (k : Nat) (l₁ l₂ : List α), k < l₁.length →
      cpass key k (l₁ ++ l₂) = cpass key k l₁ ++ l₂
  | 0, _, _, _ => rfl
  | _ + 1, [], _, h => absurd h (by simp)
  | _ + 1, [_], _, h => absurd h (by simp)
  | k + 1, a :: b :: t, l₂, h => by
    simp only [List.cons_append, cpass]
    split
    · rw [show a :: t.append l₂ = (a :: t) ++ l₂ from rfl,
        cpass_append key k (a :: t) l₂ (by simpa using Nat.lt_of_succ_lt_succ h)]
      rfl
    · rw [show b :: t.append l₂ = (b :: t) ++ l₂ from rfl,
        cpass_append key k (b :: t) l₂ (by simpa using Nat.lt_of_succ_lt_succ h)]
      rfl

theorem cpass_last {α β : Type} [LinearOrder β] (key : α → β) :
    ∀ (k : Nat) (l : List α), l.length = k + 1 →
      ∃ l2 m, cpass key k l = l2 ++ [m] ∧ ∀ x ∈ l2, key x ≤ key m
  | 0, l, h => by
    obtain ⟨a, rfl⟩ := List.length_eq_one.mp h
    exact ⟨[], a, rfl, by simp⟩
  | k + 1, l, h => by
    match l, h with
    | a :: b :: t, h =>
      have ht : (a :: t).length = k + 1 := by simpa using Nat.succ_injective h
      have ht2 : (b :: t).length = k + 1 := by simpa using Nat.succ_injective h
      simp only [cpass]
      split
      · obtain ⟨l2, m, hEq, hBound⟩ := cpass_last key k (a :: t) ht
        have haMem : a ∈ l2 ++ [m] := by
          rw [← hEq]
          exact (cpass_perm key k (a :: t)).mem_iff.mpr (by simp)
        have haLe : key a ≤ key m := by
          rcases List.mem_append.mp haMem with h' | h'
          · exact hBound a h'
          · simp only [List.mem_singleton] at h'; subst h'; exact le_rfl
        refine ⟨b :: l2, m, by simp [hEq], ?_⟩
        intro x hx
        rcases List.mem_cons.mp hx with rfl | hx
        · exact le_of_lt (lt_of_lt_of_le (by assumption) haLe)
        · exact hBound x hx
      · obtain ⟨l2, m, hEq, hBound⟩ := cpass_last key k (b :: t) ht2
        have hbMem : b ∈ l2 ++ [m] := by
          rw [← hEq]
          exact (cpass_perm key k (b :: t)).mem_iff.mpr (by simp)
        have hbLe : key b ≤ key m := by
          rcases List.mem_append.mp hbMem with h' | h'
          · exact hBound b h'
          · simp only [List.mem_singleton] at h'; subst h'; exact le_rfl
        refine ⟨a :: l2, m, by simp [hEq], ?_⟩
        intro x hx
        rcases List.mem_cons.mp hx with rfl | hx
        · exact le_trans (le_of_not_lt (by assumption)) hbLe
        · exact hBound x hx

theorem csort_length {α β : Type} [LinearOrder β] (key : α → β) :
    ∀ (k : Nat) (l : List α), (csort key k l).length = l.length
  | 0, _ => rfl
  | k + 1, l => by
    simp only [csort]
    rw [csort_length key k, cpass_length]

theorem csort_perm {α β : Type} [LinearOrder β] (key : α → β) :
    ∀ (k : Nat) (l : List α), (csort key k l).Perm l
  | 0, l => List.Perm.refl l
  | k + 1, l => (csort_perm key k (cpass key k l)).trans (cpass_perm key k l)

theorem csort_sorted_aux {α β : Type} [LinearOrder β] (key : α → β) :
    ∀ (k : Nat) (l : List α), k ≤ l.length →
      (l.drop k).Sorted (fun x y => key x ≤ key y) →
      (∀ x ∈ l.take k, ∀ y ∈ l.drop k, key x ≤ key y) →
      (csort key k l).Sorted (fun x y => key x ≤ key y)
  | 0, l, _, hs, _ => by simpa using hs
  | k + 1, l, hk, hs, hdom => by
    have htake : (l.take (k + 1)).length = k + 1 := by
      simp [List.length_take, Nat.min_eq_left hk]
    have hsplit : l.take (k + 1) ++ l.drop (k + 1) = l := List.take_append_drop _ l
    obtain ⟨l2, m, hEq, hBound⟩ := cpass_last key k (l.take (k + 1)) htake
    have hl2len : l2.length = k := by
      have := cpass_length key k (l.take (k + 1))
      rw [hEq, htake] at this
      simpa using this
    have hpass : cpass key k l = l2 ++ [m] ++ l.drop (k + 1) := by
      conv_lhs => rw [← hsplit]
      rw [cpass_append key k _ _ (by omega), hEq]
    have hmMem : m ∈ l.take (k + 1) := by
      have : m ∈ cpass key k (l.take (k + 1)) :=
        by rw [hEq]; simp
      exact (cpass_perm key k (l.take (k + 1))).mem_iff.mp this
    have hl2Mem : ∀ x ∈ l2, x ∈ l.take (k + 1) := by
      intro x hx
      have : x ∈ cpass key k (l.take (k + 1)) := by rw [hEq]; simp [hx]
      exact (cpass_perm key k (l.take (k + 1))).mem_iff.mp this
    have hdropPass : (cpass key k l).drop k = m :: l.drop (k + 1) := by
      rw [hpass, List.append_assoc, List.drop_left' hl2len]
      rfl
    have htakePass : (cpass key k l).take k = l2 := by
      rw [hpass, List.append_assoc, List.take_left' hl2len]
    simp only [csort]
    refine csort_sorted_aux key k (cpass key k l) ?_ ?_ ?_
    · rw [cpass_length]; omega
    · rw [hdropPass, List.sorted_cons]
      exact ⟨fun y hy => hdom m hmMem y hy, hs⟩
    · intro x hx y hy
      rw [htakePass] at hx
      rw [hdropPass] at hy
      rcases List.mem_cons.mp hy with rfl | hy
      · exact hBound x hx
      · exact hdom x (hl2Mem x hx) y hy

theorem csort_sorted {α β : Type} [LinearOrder β] (key : α → β) (l : List α) :
    (csort key l.length l).Sorted (fun x y => key x ≤ key y) := by
  refine csort_sorted_aux key l.length l le_rfl ?_ ?_
  · rw [List.drop_length l]; exact List.sorted_nil
  · intro x _ y hy
    rw [List.drop_length l] at hy
    exact absurd hy (List.not_mem_nil y)

theorem cpass_of_sorted {α β : Type} [LinearOrder β] (key : α → β) :
    ∀ (k : Nat) (l : List α), l.Sorted (fun x y => key x ≤ key y) →
      cpass key k l = l
  | 0, _, _ => rfl
  | _ + 1, [], _ => rfl
  | _ + 1, [_], _ => rfl
  | k + 1, a :: b :: t, h => by
    have hab : key a ≤ key b := (List.sorted_cons.mp h).1 b (by simp)
    simp only [cpass, if_neg (not_lt.mpr hab)]
    rw [cpass_of_sorted key k (b :: t) (List.sorted_cons.mp h).2]

theorem csort_of_sorted {α β : Type} [LinearOrder β] (key : α → β) :
    ∀ (k : Nat) (l : List α), l.Sorted (fun x y => key x ≤ key y) →
      csort key k l = l
  | 0, _, _ => rfl
  | k + 1, l, h => by
    simp only [csort]
    rw [cpass_of_sorted key k l h, csort_of_sorted key k l h]

/-! ## Simulation: the fuelled loops compute `csort`

`GoodOps ops key` captures the three facts `Sorter.sort` relies on about
an adapter whose state is a value sequence: `length` is the sequence
length, `compare(j)` (right index omitted) succeeds on any in-range
adjacent pair and tests `key`-order, and `swap(j)` succeeds there and
transposes the pair.  Each adapter's record is proved `GoodOps` below. -/

def GoodOps {α β : Type} [LinearOrder β] (ops : SortableOps (List α))
    (key : α → β) : Prop :=
  (∀ l : List α, ops.length l = l.length) ∧
  (∀ (l : List α) (j : Nat) (a b : α), l[j]? = some a → l[j + 1]? = some b →
    ops.compare l j = some (decide (key b < key a))) ∧
  (∀ (l : List α) (j : Nat) (a b : α), l[j]? = some a → l[j + 1]? = some b →
    ops.swap l j = some (swapAdj l j))

theorem sortInner_eq {α β : Type} [LinearOrder β] {ops : SortableOps (List α)}
    {key : α → β} (hops : GoodOps ops key) :
    ∀ (fuel : Nat) (l : List α) (i j : Nat), l.length - i - 1 - j ≤ fuel →
      sortInner ops i fuel l j =
        some (l.take j ++ cpass key (l.length - i - 1 - j) (l.drop j)) := by
  intro fuel
  induction fuel with
  | zero =>
    intro l i j hfuel
    have h0 : l.length - i - 1 - j = 0 := Nat.le_zero.mp hfuel
    rw [h0]
    simp [sortInner, cpass, List.take_append_drop]
  | succ fuel ih =>
    intro l i j hfuel
    rw [sortInner, (hops.1 l)]
    by_cases hj : j < l.length - i - 1
    · rw [if_pos hj]
      have hj1 : j + 1 < l.length := by omega
      have hjl : j < l.length := by omega
      have ha : l[j]? = some l[j] := List.getElem?_eq_getElem hjl
      have hb : l[j + 1]? = some l[j + 1] := List.getElem?_eq_getElem hj1
      rw [hops.2.1 l j _ _ ha hb]
      have hdrop : l.drop j = l[j] :: l[j + 1] :: l.drop (j + 2) := by
        rw [List.drop_eq_getElem_cons hjl, List.drop_eq_getElem_cons hj1]
      have hstop : l.length - i - 1 - j = (l.length - i - 1 - (j + 1)) + 1 := by
        omega
      by_cases hlt : key l[j + 1] < key l[j]
      · rw [decide_eq_true hlt]
        rw [hops.2.2 l j _ _ ha hb]
        show sortInner ops i fuel (swapAdj l j) (j + 1) =
          some (l.take j ++ cpass key (l.length - i - 1 - j) (l.drop j))
        set l2 := swapAdj l j with hl2
        have hl2eq : l2 = l.take j ++ l[j + 1] :: l[j] :: l.drop (j + 2) :=
          swapAdj_eq l j _ _ ha hb
        have hl2len : l2.length = l.length := swapAdj_length l j
        have htl : (l.take j).length = j := by
          simp [List.length_take, Nat.min_eq_left (le_of_lt hjl)]
        have hpre : (l.take j ++ [l[j + 1]]).length = j + 1 := by
          simp [htl]
        have htake2 : l2.take (j + 1) = l.take j ++ [l[j + 1]] := by
          rw [hl2eq, show l.take j ++ l[j + 1] :: l[j] :: l.drop (j + 2) =
            (l.take j ++ [l[j + 1]]) ++ (l[j] :: l.drop (j + 2)) by simp,
            List.take_left' hpre]
        have hdrop2 : l2.drop (j + 1) = l[j] :: l.drop (j + 2) := by
          rw [hl2eq, show l.take j ++ l[j + 1] :: l[j] :: l.drop (j + 2) =
            (l.take j ++ [l[j + 1]]) ++ (l[j] :: l.drop (j + 2)) by simp,
            List.drop_left' hpre]
        rw [ih l2 i (j + 1) (by omega)]
        rw [htake2, hdrop2, hl2len, hstop, hdrop]
        rw [cpass, if_pos hlt]
        simp
      · rw [decide_eq_false hlt]
        show sortInner ops i fuel l (j + 1) =
          some (l.take j ++ cpass key (l.length - i - 1 - j) (l.drop j))
        rw [ih l i (j + 1) (by omega)]
        have htake1 : l.take (j + 1) = l.take j ++ [l[j]] := by
          rw [List.take_succ, List.getElem?_eq_getElem hjl]
          rfl
        have hdrop1 : l.drop (j + 1) = l[j + 1] :: l.drop (j + 2) :=
          List.drop_eq_getElem_cons hj1
        rw [htake1, hdrop1, hstop, hdrop]
        rw [cpass, if_neg hlt]
        rw [List.append_assoc]
        rfl
    · rw [if_neg hj]
      have h0 : l.length - i - 1 - j = 0 := by omega
      rw [h0]
      simp [cpass, List.take_append_drop]

theorem sortOuter_eq {α β : Type} [LinearOrder β] {ops : SortableOps (List α)}
    {key : α → β} (hops : GoodOps ops key) :
    ∀ (fuel : Nat) (l : List α) (i : Nat), l.length - i ≤ fuel →
      sortOuter ops fuel l i = some (csort key (l.length - i) l) := by
  intro fuel
  induction fuel with
  | zero =>
    intro l i hfuel
    have h0 : l.length - i = 0 := Nat.le_zero.mp hfuel
    rw [h0]
    rfl
  | succ fuel ih =>
    intro l i hfuel
    rw [sortOuter, (hops.1 l)]
    by_cases hi : i < l.length
    · rw [if_pos hi]
      have hInner : sortInner ops i l.length l 0 =
          some (cpass key (l.length - i - 1) l) := by
        rw [sortInner_eq hops l.length l i 0 (by omega)]
        simp
      rw [hInner]
      have hlen2 : (cpass key (l.length - i - 1) l).length = l.length :=
        cpass_length key _ l
      show sortOuter ops fuel (cpass key (l.length - i - 1) l) (i + 1) =
        some (csort key (l.length - i) l)
      rw [ih (cpass key (l.length - i - 1) l) (i + 1) (by omega)]
      rw [hlen2]
      have hstep : l.length - i = (l.length - (i + 1)) + 1 := by omega
      rw [hstep, csort]
      have h1 : l.length - (i + 1) = l.length - i - 1 := by omega
      rw [h1]
      have h2 : l.length - i - 1 + 1 - 1 = l.length - i - 1 := by omega
      rw [h2]
    · rw [if_neg hi]
      have h0 : l.length - i = 0 := by omega
      rw [h0]
      rfl

/-- Under `GoodOps`, `Sorter.sort` always succeeds and computes `csort`. -/
theorem sort_eq_csort {α β : Type} [LinearOrder β] {ops : SortableOps (List α)}
    {key : α → β} (hops : GoodOps ops key) (l : List α) :
    Sorter.sort ops l = some (csort key l.length l) := by
  have := sortOuter_eq hops (ops.length l) l 0 (by rw [hops.1 l]; omega)
  simpa [Sorter.sort] using this

/-! ## The three adapters satisfy `GoodOps` -/

theorem LinkedList.llength_eq (l : List Int) : LinkedList.llength l = l.length := by
  induction l with
  | nil => rfl
  | cons x t ih => simp [LinkedList.llength, ih]

theorem LinkedList.nodeAt_eq (l : List Int) (i : Nat) :
    LinkedList.nodeAt l i = l[i]? := by
  induction l generalizing i with
  | nil => simp [LinkedList.nodeAt]
  | cons x t ih =>
    cases i with
    | zero => simp [LinkedList.nodeAt]
    | succ n => simp [LinkedList.nodeAt, ih]

theorem numbersGoodOps :
    GoodOps NumbersCollection.ops (id : Int → Int) := by
  refine ⟨fun _ => rfl, ?_, ?_⟩
  · intro l j a b ha hb
    show some (NumbersCollection.compare l j none) = _
    rw [NumbersCollection.compare]
    simp only [Option.getD_none, ha, hb]
    exact congrArg some (decide_eq_decide.mpr gt_iff_lt)
  · intro l j a b ha hb
    show some (NumbersCollection.swap l j none) = some (swapAdj l j)
    rw [NumbersCollection.swap, swapAdj]
    simp only [Option.getD_none, ha, hb]
    rw [if_neg (Nat.ne_of_lt (Nat.lt_succ_self j))]

theorem charactersGoodOps :
    GoodOps CharactersCollection.ops changeCase := by
  refine ⟨fun _ => rfl, ?_, ?_⟩
  · intro l j a b ha hb
    show CharactersCollection.compare l j none = _
    rw [CharactersCollection.compare]
    simp only [falsyDefault, ha, hb]
    exact congrArg some (decide_eq_decide.mpr gt_iff_lt)
  · intro l j a b ha hb
    have hlen : j + 1 < l.length := (List.getElem?_eq_some.mp hb).1
    show some (CharactersCollection.swap l j none) = some (swapAdj l j)
    rw [CharactersCollection.swap, swapAdj_eq l j a b ha hb]
    simp only [falsyDefault, ha, hb, jsCharStr]
    rw [if_pos hlen]
    cases Nat.eq_zero_or_pos j with
    | inl h0 => subst h0; simp
    | inr hp => rw [if_pos hp]; simp

theorem linkedListGoodOps : GoodOps LinkedList.ops (id : Int → Int) := by
  refine ⟨LinkedList.llength_eq, ?_, ?_⟩
  · intro l j a b ha hb
    have hlen : j + 1 < l.length := (List.getElem?_eq_some.mp hb).1
    show LinkedList.compare l j none = _
    match l, hlen with
    | x :: y :: t, hlen =>
      simp only [LinkedList.compare, falsyDefault, LinkedList.llength_eq,
        LinkedList.nodeAt_eq]
      rw [if_pos hlen, ha, hb]
      exact congrArg some (decide_eq_decide.mpr gt_iff_lt)
  · intro l j a b ha hb
    have hlen : j + 1 < l.length := (List.getElem?_eq_some.mp hb).1
    show LinkedList.swap l j none = some (swapAdj l j)
    rw [LinkedList.swap]
    simp only [falsyDefault, LinkedList.nodeAt_eq, LinkedList.llength_eq,
      ha, hb]
    have hcond : ¬(0 < j ∧ l[j - 1]? = none) := by
      rintro ⟨hj0, hnone⟩
      rw [List.getElem?_eq_getElem (by omega : j - 1 < l.length)] at hnone
      exact Option.some_ne_none _ hnone
    rw [if_neg hcond, swapAdj_eq l j a b ha hb]
    by_cases htail : j + 1 < l.length - 1
    · rw [if_pos htail]
    · rw [if_neg htail]
      have hnil : l.drop (j + 2) = [] := List.drop_eq_nil_of_le (by omega)
      rw [hnil]

/-! ## Consequences used by the claims -/

theorem numbers_sort_run (l : List Int) :
    Sorter.sort NumbersCollection.ops l =
      some (csort (id : Int → Int) l.length l) :=
  sort_eq_csort numbersGoodOps l

theorem characters_sort_run (l : List Char) :
    Sorter.sort CharactersCollection.ops l =
      some (csort changeCase l.length l) :=
  sort_eq_csort charactersGoodOps l

theorem linkedList_sort_run (l : List Int) :
    Sorter.sort LinkedList.ops l = some (csort (id : Int → Int) l.length l) :=
  sort_eq_csort linkedListGoodOps l

/-- Sorting a state whose `length` is `0` or `1` performs no inner-loop
iteration at all: `sort()` returns at once with the state unchanged, for
any adapter whatsoever. -/
theorem sort_length_le_one {σ : Type} (ops : SortableOps σ) (s : σ)
    (h : ops.length s ≤ 1) : Sorter.sort ops s = some s := by
  rcases Nat.le_one_iff_eq_zero_or_eq_one.mp h with h0 | h1
  · rw [Sorter.sort, h0, sortOuter]
  · rw [Sorter.sort]
    simp [sortOuter, sortInner, h1]

/-- Under `GoodOps`, running `sort()` on the result of `sort()` returns
that result unchanged. -/
theorem sort_bind_sort {α β : Type} [LinearOrder β] {ops : SortableOps (List α)}
    {key : α → β} (hops : GoodOps ops key) (l : List α) :
    (Sorter.sort ops l).bind (Sorter.sort ops) = Sorter.sort ops l := by
  rw [sort_eq_csort hops l, Option.some_bind, sort_eq_csort hops _,
    csort_of_sorted key _ _ (csort_sorted key l)]

theorem sorted_key_le {α β : Type} [LinearOrder β] {key : α → β} {l : List α}
    (hs : l.Sorted (fun x y => key x ≤ key y)) (i : Nat) (h : i + 1 < l.length) :
    key l[i] ≤ key l[i + 1] := by
  have hlt : (⟨i, by omega⟩ : Fin l.length) < ⟨i + 1, h⟩ := by
    rw [Fin.mk_lt_mk]
    omega
  have := List.Sorted.rel_get_of_lt hs hlt
  simpa using this

/-! ## The claims -/

/-- Claim C1: for every adapter (numbers array, characters string, linked
list) and every initial collection state, after `sort()` returns,
`compare(i)` (right index omitted) returns false for every adjacent index
pair `i` in `[0, length - 1)`: the collection is in non-descending order
under that adapter's ordering rule. -/
theorem sort_ordering_invariant :
    (∀ (xs t : List Int), Sorter.sort NumbersCollection.ops xs = some t →
      ∀ i, i + 1 < t.length → NumbersCollection.compare t i none = false) ∧
    (∀ (s t : List Char), Sorter.sort CharactersCollection.ops s = some t →
      ∀ i, i + 1 < t.length →
        CharactersCollection.compare t i none = some false) ∧
    (∀ (xs t : List Int), Sorter.sort LinkedList.ops xs = some t →
      ∀ i, i + 1 < LinkedList.llength t →
        LinkedList.compare t i none = some false) := by
  refine ⟨?_, ?_, ?_⟩
  · intro xs t hrun i hi
    have ht : t = csort (id : Int → Int) xs.length xs :=
      Option.some.inj ((numbers_sort_run xs ▸ hrun).symm)
    have hs : t.Sorted (fun x y => (id x : Int) ≤ id y) := by
      rw [ht]; exact csort_sorted (id : Int → Int) xs
    have hle := sorted_key_le hs i hi
    have hc := numbersGoodOps.2.1 t i t[i] t[i + 1]
      (List.getElem?_eq_getElem (by omega)) (List.getElem?_eq_getElem hi)
    rw [show NumbersCollection.ops.compare t i =
      some (NumbersCollection.compare t i none) from rfl] at hc
    rw [Option.some.inj hc]
    exact decide_eq_false (not_lt.mpr hle)
  · intro s t hrun i hi
    have ht : t = csort changeCase s.length s :=
      Option.some.inj ((characters_sort_run s ▸ hrun).symm)
    have hs : t.Sorted (fun x y => changeCase x ≤ changeCase y) := by
      rw [ht]; exact csort_sorted changeCase s
    have hle := sorted_key_le hs i hi
    have hc := charactersGoodOps.2.1 t i t[i] t[i + 1]
      (List.getElem?_eq_getElem (by omega)) (List.getElem?_eq_getElem hi)
    rw [show CharactersCollection.ops.compare t i =
      CharactersCollection.compare t i none from rfl] at hc
    rw [hc]
    refine congrArg some ?_
    simp only [decide_eq_false_iff_not]
    exact not_lt.mpr hle
  · intro xs t hrun i hi
    rw [LinkedList.llength_eq] at hi
    have ht : t = csort (id : Int → Int) xs.length xs :=
      Option.some.inj ((linkedList_sort_run xs ▸ hrun).symm)
    have hs : t.Sorted (fun x y => (id x : Int) ≤ id y) := by
      rw [ht]; exact csort_sorted (id : Int → Int) xs
    have hle := sorted_key_le hs i hi
    have hc := linkedListGoodOps.2.1 t i t[i] t[i + 1]
      (List.getElem?_eq_getElem (by omega)) (List.getElem?_eq_getElem hi)
    rw [show LinkedList.ops.compare t i =
      LinkedList.compare t i none from rfl] at hc
    rw [hc]
    refine congrArg some ?_
    simp only [decide_eq_false_iff_not]
    exact not_lt.mpr hle

theorem sort_ordering_invariant_witness :
    NumbersCollection.compare [1, 2] 0 none = false ∧
    CharactersCollection.compare ['a', 'b'] 0 none = some false ∧
    LinkedList.compare [1, 2] 0 none = some false :=
  ⟨sort_ordering_invariant.1 [2, 1] [1, 2] (by decide) 0 (by decide),
   sort_ordering_invariant.2.1 ['b', 'a'] ['a', 'b'] (by decide) 0 (by decide),
   sort_ordering_invariant.2.2 [2, 1] [1, 2] (by decide) 0 (by decide)⟩

/-- Claim C2: on a fresh `LinkedList`, `add(1234); add(456); add(123);
add(789)` followed by `sort()` yields the head-to-tail traversal
`123, 456, 789, 1234`. -/
theorem linked_list_scenario :
    Sorter.sort LinkedList.ops
      (LinkedList.add (LinkedList.add (LinkedList.add
        (LinkedList.add [] 1234) 456) 123) 789) =
      some [123, 456, 789, 1234] := by
  decide

/-- Claim C3: a `NumbersCollection` constructed with backing array
`[2, 1, 3, -4]` has backing array `[-4, 1, 2, 3]` after `sort()`. -/
theorem numbers_scenario :
    Sorter.sort NumbersCollection.ops [2, 1, 3, -4] = some [-4, 1, 2, 3] := by
  decide

/-- Claim C4, counterexample: with backing string `"Aa"` the adjacent
positions `0, 1` hold `'A'` and `'a'`, yet `compare(0)` returns true, not
false — refuting the claim that `'a'` and `'A'` compare as equal-rank
regardless of which sits on the left. -/
theorem compare_Aa_returns_true :
    CharactersCollection.compare ['A', 'a'] 0 none = some true := by
  decide

/-- Claim C4, amended: `changeCase` toggles the case of `a/A` (and `b/B`)
instead of folding to a common case, so `'a'` and `'A'` are not
equal-rank neighbours: with `'a'` at the left position and `'A'` at the
right, `compare(i)` returns false, but with `'A'` at the left and `'a'`
at the right it returns true. -/
theorem changeCase_toggle_rank (s : List Char) (i : Nat) :
    (s[i]? = some 'a' → s[i + 1]? = some 'A' →
      CharactersCollection.compare s i none = some false) ∧
    (s[i]? = some 'A' → s[i + 1]? = some 'a' →
      CharactersCollection.compare s i none = some true) := by
  constructor
  · intro h1 h2
    rw [CharactersCollection.compare]
    simp only [falsyDefault, h1, h2]
    decide
  · intro h1 h2
    rw [CharactersCollection.compare]
    simp only [falsyDefault, h1, h2]
    decide

theorem changeCase_toggle_rank_witness :
    CharactersCollection.compare ['a', 'A'] 0 none = some false ∧
    CharactersCollection.compare ['A', 'a'] 0 none = some true :=
  ⟨(changeCase_toggle_rank ['a', 'A'] 0).1 (by decide) (by decide),
   (changeCase_toggle_rank ['A', 'a'] 0).2 (by decide) (by decide)⟩

/-- Claim C5: for every adapter whose `length` is `0` or `1`, `sort()`
completes without signalling any error (no `compare` or `swap` runs, so in
particular the linked list's "need at least two node" throw is
unreachable) and the collection is unchanged. -/
theorem sort_boundary :
    (∀ xs : List Int, xs.length ≤ 1 →
      Sorter.sort NumbersCollection.ops xs = some xs) ∧
    (∀ s : List Char, s.length ≤ 1 →
      Sorter.sort CharactersCollection.ops s = some s) ∧
    (∀ xs : List Int, LinkedList.llength xs ≤ 1 →
      Sorter.sort LinkedList.ops xs = some xs) :=
  ⟨fun xs h => sort_length_le_one NumbersCollection.ops xs h,
   fun s h => sort_length_le_one CharactersCollection.ops s h,
   fun xs h => sort_length_le_one LinkedList.ops xs h⟩

theorem sort_boundary_witness :
    Sorter.sort NumbersCollection.ops [] = some [] ∧
    Sorter.sort CharactersCollection.ops ['x'] = some ['x'] ∧
    Sorter.sort LinkedList.ops [7] = some [7] :=
  ⟨sort_boundary.1 [] (by decide), sort_boundary.2.1 ['x'] (by decide),
   sort_boundary.2.2 [7] (by decide)⟩

/-- Claim C6: for every adapter and initial state, `length` after `sort()`
equals `length` before; and each adapter's `swap`, invoked on valid
adjacent indices, preserves `length`. -/
theorem sort_length_preservation :
    (∀ xs : List Int, (Sorter.sort NumbersCollection.ops xs).map List.length =
      some xs.length) ∧
    (∀ s : List Char, (Sorter.sort CharactersCollection.ops s).map List.length =
      some s.length) ∧
    (∀ xs : List Int, (Sorter.sort LinkedList.ops xs).map LinkedList.llength =
      some (LinkedList.llength xs)) ∧
    (∀ (xs : List Int) (j : Nat), j + 1 < xs.length →
      (NumbersCollection.swap xs j none).length = xs.length) ∧
    (∀ (s : List Char) (j : Nat), j + 1 < s.length →
      (CharactersCollection.swap s j none).length = s.length) ∧
    (∀ (xs : List Int) (j : Nat), j + 1 < LinkedList.llength xs →
      (LinkedList.swap xs j none).map LinkedList.llength =
        some (LinkedList.llength xs)) := by
  refine ⟨?_, ?_, ?_, ?_, ?_, ?_⟩
  · intro xs
    rw [numbers_sort_run xs, Option.map_some']
    rw [csort_length]
  · intro s
    rw [characters_sort_run s, Option.map_some']
    rw [csort_length]
  · intro xs
    rw [linkedList_sort_run xs, Option.map_some']
    rw [LinkedList.llength_eq, LinkedList.llength_eq, csort_length]
  · intro xs j hj
    have hc := numbersGoodOps.2.2 xs j xs[j] xs[j + 1]
      (List.getElem?_eq_getElem (by omega)) (List.getElem?_eq_getElem hj)
    rw [show NumbersCollection.ops.swap xs j =
      some (NumbersCollection.swap xs j none) from rfl] at hc
    rw [Option.some.inj hc, swapAdj_length]
  · intro s j hj
    have hc := charactersGoodOps.2.2 s j s[j] s[j + 1]
      (List.getElem?_eq_getElem (by omega)) (List.getElem?_eq_getElem hj)
    rw [show CharactersCollection.ops.swap s j =
      some (CharactersCollection.swap s j none) from rfl] at hc
    rw [Option.some.inj hc, swapAdj_length]
  · intro xs j hj
    rw [LinkedList.llength_eq] at hj
    have hc := linkedListGoodOps.2.2 xs j xs[j] xs[j + 1]
      (List.getElem?_eq_getElem (by omega)) (List.getElem?_eq_getElem hj)
    rw [show LinkedList.ops.swap xs j = LinkedList.swap xs j none from rfl] at hc
    rw [hc, Option.map_some']
    rw [LinkedList.llength_eq, LinkedList.llength_eq, swapAdj_length]

theorem sort_length_preservation_witness :
    (NumbersCollection.swap [5, 6] 0 none).length = ([5, 6] : List Int).length ∧
    (CharactersCollection.swap ['x', 'y'] 0 none).length =
      (['x', 'y'] : List Char).length ∧
    (LinkedList.swap [5, 6] 0 none).map LinkedList.llength =
      some (LinkedList.llength [5, 6]) :=
  ⟨sort_length_preservation.2.2.2.1 [5, 6] 0 (by decide),
   sort_length_preservation.2.2.2.2.1 ['x', 'y'] 0 (by decide),
   sort_length_preservation.2.2.2.2.2 [5, 6] 0 (by decide)⟩

/-- Claim C7: for every adapter and initial state, running `sort()` on the
result of `sort()` returns that result unchanged — `sort` is idempotent,
and sorting an already-sorted collection changes nothing. -/
theorem sort_idempotent :
    (∀ xs : List Int, (Sorter.sort NumbersCollection.ops xs).bind
      (Sorter.sort NumbersCollection.ops) = Sorter.sort NumbersCollection.ops xs) ∧
    (∀ s : List Char, (Sorter.sort CharactersCollection.ops s).bind
      (Sorter.sort CharactersCollection.ops) =
        Sorter.sort CharactersCollection.ops s) ∧
    (∀ xs : List Int, (Sorter.sort LinkedList.ops xs).bind
      (Sorter.sort LinkedList.ops) = Sorter.sort LinkedList.ops xs) :=
  ⟨fun xs => sort_bind_sort numbersGoodOps xs,
   fun s => sort_bind_sort charactersGoodOps s,
   fun xs => sort_bind_sort linkedListGoodOps xs⟩

/-- Claim C8: `LinkedList.at(index)` throws (is modelled `none`) for every
`index ≥ length`, never returning a null-like placeholder, and returns the
node at the 0-based position for every `index < length`. -/
theorem nodeAt_out_of_range (list : List Int) (index : Nat) :
    (list.length ≤ index → LinkedList.nodeAt list index = none) ∧
    (∀ h : index < list.length,
      LinkedList.nodeAt list index = some list[index]) := by
  rw [LinkedList.nodeAt_eq]
  exact ⟨fun h => List.getElem?_eq_none h, fun h => List.getElem?_eq_getElem h⟩

theorem nodeAt_out_of_range_witness :
    LinkedList.nodeAt [5] 3 = none ∧ LinkedList.nodeAt [5] 0 = some 5 :=
  ⟨(nodeAt_out_of_range [5] 3).1 (by decide),
   (nodeAt_out_of_range [5] 0).2 (by decide)⟩

/-- Claim C9: for the linked-list and string adapters an explicit right
index `0` is falsy and is replaced by `leftIndex + 1`, exactly as if the
argument were omitted; the array adapter's true default parameter honours
an explicit `0` (shown on `[1, 2, 3]`, where `compare(1, 0)`/`swap(1, 0)`
differ from `compare(1)`/`swap(1)`). -/
theorem falsy_right_index_default :
    (∀ (list : List Int) (l : Nat),
      LinkedList.compare list l (some 0) = LinkedList.compare list l none) ∧
    (∀ (list : List Int) (l : Nat),
      LinkedList.swap list l (some 0) = LinkedList.swap list l none) ∧
    (∀ (s : List Char) (l : Nat),
      CharactersCollection.compare s l (some 0) =
        CharactersCollection.compare s l none) ∧
    (∀ (s : List Char) (l : Nat),
      CharactersCollection.swap s l (some 0) =
        CharactersCollection.swap s l none) ∧
    NumbersCollection.compare [1, 2, 3] 1 (some 0) = true ∧
    NumbersCollection.compare [1, 2, 3] 1 none = false ∧
    NumbersCollection.swap [1, 2, 3] 1 (some 0) = [2, 1, 3] ∧
    NumbersCollection.swap [1, 2, 3] 1 none = [1, 3, 2] :=
  ⟨fun _ _ => rfl, fun _ _ => rfl, fun _ _ => rfl, fun _ _ => rfl,
   by decide, by decide, by decide, by decide⟩

/-- Claim C10: `NumbersCollection.compare` is total: whenever either index
is outside `[0, length)` it silently returns false (the out-of-range read
gives `undefined`, and `>` on `undefined` is false) instead of raising a
precondition violation. -/
theorem numbers_compare_total (data : List Int) (leftIndex r : Nat)
    (h : data.length ≤ leftIndex ∨ data.length ≤ r) :
    NumbersCollection.compare data leftIndex (some r) = false := by
  rw [NumbersCollection.compare]
  simp only [Option.getD_some]
  rcases h with h | h
  · rw [List.getElem?_eq_none h]
  · rw [List.getElem?_eq_none h]
    cases data[leftIndex]? <;> rfl

theorem numbers_compare_total_witness :
    NumbersCollection.compare [3] 0 (some 5) = false :=
  numbers_compare_total [3] 0 5 (by decide)
